import Mathlib

/-!
Shallow embedding of the stockseer statistics engine
(`src/lib/statistics.ts`) and trading-day calendar utility
(`src/ai/flows/generate-stock-forecast.ts`, `getNextFiveBusinessDays`).

Prices are modelled as rationals (ℚ); bar timestamps as milliseconds
since the Unix epoch (a natural number), matching the nonnegative
timestamps of market data.  JavaScript `Date` objects are modelled as
calendar day numbers (days since 1970-01-01, a Thursday), so
`getUTCDay` of day number `d` is `(d + 4) % 7`.
-/

namespace StockSeer

/-- One daily OHLCV bar, mirroring the Alpaca `Bar` fields used by the
statistics engine. -/
structure Bar where
  Timestamp : Nat
  OpenPrice : ℚ
  HighPrice : ℚ
  LowPrice : ℚ
  ClosePrice : ℚ
  Volume : ℚ
deriving DecidableEq

instance : Inhabited Bar := ⟨⟨0, 0, 0, 0, 0, 0⟩⟩

/-- Direction of a gain/loss streak. -/
inductive Direction where
  | gain
  | loss
deriving DecidableEq

/-- Output of `calculateConsecutiveGainLossStreak`. -/
structure ConsecutiveGainLossStreak where
  direction : Direction
  days : Nat
deriving DecidableEq

/-- Output of `calculateRecentPerformance`. -/
structure RecentPerformance where
  change_1d : ℚ
  change_5d : ℚ
  change_30d : ℚ
deriving DecidableEq

/-- Output of `calculate52WeekPricePosition`. -/
structure PricePosition52w where
  high : ℚ
  low : ℚ
  position : ℚ
deriving DecidableEq

/-- One entry of the day-of-week performance table. -/
structure DayOfWeekPerformance where
  day : String
  avgGain : ℚ
  avgLoss : ℚ
  winRate : ℚ
deriving DecidableEq

/-- The engine's sole output. -/
structure HistoricalContext where
  consecutiveGainLossStreak : ConsecutiveGainLossStreak
  recentPerformance : RecentPerformance
  averageTrueRange_14d : ℚ
  pricePosition_52w : PricePosition52w
  dayOfWeekPerformance : List DayOfWeekPerformance
deriving DecidableEq

/-- A bar's own close-vs-open sign: `gain` iff `ClosePrice > OpenPrice`
(source: `bars[i].ClosePrice > bars[i].OpenPrice ? 'gain' : 'loss'`). -/
def barDirection (b : Bar) : Direction :=
  if b.OpenPrice < b.ClosePrice then .gain else .loss

/-- The backward walk of `calculateConsecutiveGainLossStreak`: counts the
matching prefix of the reversed bar list (the source loop runs
`i = length-1 .. 0`, incrementing while the direction matches and breaking
at the first mismatch). -/
def streakLen (dir : Direction) : List Bar → Nat
  | [] => 0
  | b :: rest => if barDirection b = dir then streakLen dir rest + 1 else 0

/-- `calculateConsecutiveGainLossStreak` from `statistics.ts`. -/
def calculateConsecutiveGainLossStreak (bars : List Bar) : ConsecutiveGainLossStreak :=
  let lastBar := bars.getLastD default
  let direction := barDirection lastBar
  { direction := direction, days := streakLen direction bars.reverse }

/-- The inner `getChange` closure of `calculateRecentPerformance`:
`bars.length > daysAgo` guards the lookup of
`bars[bars.length - 1 - daysAgo]`; otherwise `0`. -/
def getChange (bars : List Bar) (daysAgo : Nat) : ℚ :=
  let lastClose := (bars.getLastD default).ClosePrice
  if daysAgo < bars.length then
    let pastClose := (bars.getD (bars.length - 1 - daysAgo) default).ClosePrice
    (lastClose - pastClose) / pastClose
  else 0

/-- `calculateRecentPerformance` from `statistics.ts`. -/
def calculateRecentPerformance (bars : List Bar) : RecentPerformance :=
  { change_1d := getChange bars 1
    change_5d := getChange bars 5
    change_30d := getChange bars 30 }

/-- True range of an adjacent bar pair:
`max(high - low, |high - prevClose|, |low - prevClose|)`. -/
def trueRange (prev cur : Bar) : ℚ :=
  max (cur.HighPrice - cur.LowPrice)
    (max |cur.HighPrice - prev.ClosePrice| |cur.LowPrice - prev.ClosePrice|)

/-- The full true-range series: the source loop runs `i = 1 .. length-1`
pairing `bars[i-1]` with `bars[i]`. -/
def trueRanges (bars : List Bar) : List ℚ :=
  List.zipWith trueRange bars bars.tail

/-- `calculateAverageTrueRange` from `statistics.ts`: guard is
`bars.length < period`; `slice(-period)` keeps the last at-most-`period`
true ranges; the sum is always divided by `period`. -/
def calculateAverageTrueRange (bars : List Bar) (period : Nat) : ℚ :=
  if bars.length < period then 0
  else
    let trs := trueRanges bars
    let relevant := trs.drop (trs.length - period)
    relevant.sum / (period : ℚ)

/-- `calculate52WeekPricePosition` from `statistics.ts`: despite the name,
`high`/`low` are `Math.max`/`Math.min` over ALL bars passed in (the source
never slices to a 252-bar window). -/
def calculate52WeekPricePosition (bars : List Bar) : PricePosition52w :=
  match bars with
  | [] => { high := 0, low := 0, position := 0 }
  | b :: rest =>
    let high := (rest.map Bar.HighPrice).foldl max b.HighPrice
    let low := (rest.map Bar.LowPrice).foldl min b.LowPrice
    let currentPrice := (rest.getLastD b).ClosePrice
    let position := if 0 < high - low then (currentPrice - low) / (high - low) else 1/2
    { high := high, low := low, position := position }

/-- Milliseconds per calendar day. -/
def msPerDay : Nat := 86400000

/-- `new Date(ms).getUTCDay()` for a nonnegative millisecond timestamp:
1970-01-01 was a Thursday (weekday 4). -/
def getUTCDay (ts : Nat) : Nat := (ts / msPerDay + 4) % 7

/-- The `dayNames` table of `calculateDayOfWeekPerformance`. -/
def dayNames : List String :=
  ["Sunday", "Monday", "Tuesday", "Wednesday", "Thursday", "Friday", "Saturday"]

/-- `dayNames[date.getUTCDay()]` for a bar. -/
def barDayName (b : Bar) : String := dayNames.getD (getUTCDay b.Timestamp) ""

/-- The per-bar same-day return `(close - open) / open`. -/
def dailyChange (b : Bar) : ℚ := (b.ClosePrice - b.OpenPrice) / b.OpenPrice

/-- The key set of the `performance` accumulator object in insertion
order: JavaScript `Object.keys` yields string keys in first-insertion
order, i.e. the order of first occurrence of each weekday name. -/
def insertionOrder (bars : List Bar) : List String :=
  bars.foldl (fun acc b => if barDayName b ∈ acc then acc else acc ++ [barDayName b]) []

/-- The `DayOfWeekPerformance` entry built for one weekday name: the
source accumulates, over bars of that weekday in series order, the
positive returns (`gains`), negative returns (`losses`), `wins` and
`total`, then averages. -/
def dayEntry (bars : List Bar) (day : String) : DayOfWeekPerformance :=
  let group := bars.filter (fun b => barDayName b == day)
  let gains := (group.map dailyChange).filter (fun c => decide (0 < c))
  let losses := (group.map dailyChange).filter (fun c => decide (c < 0))
  let wins := gains.length
  let total := group.length
  let avgGain := if 0 < gains.length then gains.sum / (gains.length : ℚ) else 0
  let avgLoss := if 0 < losses.length then losses.sum / (losses.length : ℚ) else 0
  let winRate := if 0 < total then (wins : ℚ) / (total : ℚ) else 0
  { day := day, avgGain := avgGain, avgLoss := avgLoss, winRate := winRate }

/-- `calculateDayOfWeekPerformance` from `statistics.ts`. -/
def calculateDayOfWeekPerformance (bars : List Bar) : List DayOfWeekPerformance :=
  (insertionOrder bars).map (dayEntry bars)

/-- The error message thrown when fewer than 30 bars are supplied. -/
def insufficientHistoryMsg : String :=
  "Not enough historical data to calculate statistics. Need at least 30 days."

/-- `calculateHistoricalStatistics` from `statistics.ts`; the JavaScript
`throw` is modelled as `Except.error`. -/
def calculateHistoricalStatistics (bars : List Bar) : Except String HistoricalContext :=
  if bars.length < 30 then .error insufficientHistoryMsg
  else .ok
    { consecutiveGainLossStreak := calculateConsecutiveGainLossStreak bars
      recentPerformance := calculateRecentPerformance bars
      averageTrueRange_14d := calculateAverageTrueRange bars 14
      pricePosition_52w := calculate52WeekPricePosition bars
      dayOfWeekPerformance := calculateDayOfWeekPerformance bars }

/-- Weekday of a calendar day number (days since 1970-01-01, a
Thursday), matching `Date.getUTCDay` on a midnight-UTC date: 0 = Sunday,
6 = Saturday. -/
def dayOfWeek (d : Nat) : Nat := (d + 4) % 7

/-- The collection loop of `getNextFiveBusinessDays`
(`while (dates.length < 5) { if weekday then push; day++ }`), with an
explicit fuel bound on the number of iterations.
`collectBusinessDays_length` below shows the fuel used by
`getNextFiveBusinessDays` is never exhausted, so the fuelled recursion
coincides with the source's unbounded loop. -/
def collectBusinessDays : Nat → Nat → Nat → List Nat
  | 0, _, _ => []
  | _ + 1, 0, _ => []
  | fuel + 1, needed + 1, d =>
    if dayOfWeek d ≠ 6 ∧ dayOfWeek d ≠ 0 then
      d :: collectBusinessDays fuel needed (d + 1)
    else
      collectBusinessDays fuel (needed + 1) (d + 1)

/-- `getNextFiveBusinessDays` from `generate-stock-forecast.ts`, after
the `Intl.DateTimeFormat` resolution of the reference instant into the
exchange-local calendar day (`day`, a day number) and local `hour`:
if it is a weekday at/after hour 16, or a Saturday or Sunday, start from
the next calendar day; then collect 5 weekdays. -/
def getNextFiveBusinessDays (day hour : Nat) : List Nat :=
  let dow := dayOfWeek day
  let start :=
    if (1 ≤ dow ∧ dow ≤ 5 ∧ 16 ≤ hour) ∨ dow = 6 ∨ dow = 0 then day + 1 else day
  collectBusinessDays 20 5 start

/-! ### Auxiliary definitions used by the verification -/

/-- Length of the run of non-business days starting at `d` (0, 1 or 2,
since Saturday and Sunday are the only consecutive weekend days). -/
def weekendRun (d : Nat) : Nat :=
  if dayOfWeek d ≠ 6 ∧ dayOfWeek d ≠ 0 then 0
  else if dayOfWeek (d + 1) ≠ 6 ∧ dayOfWeek (d + 1) ≠ 0 then 1 else 2

/-- Close price at index `i` (spec-side shorthand for the source's
`bars[i].ClosePrice`). -/
def closeAt (bars : List Bar) (i : Nat) : ℚ := (bars.getD i default).ClosePrice

/-- Modelled from the spec (NOT from the source, which never slices):
the spec's §4.2(4) says the 52-week price position is computed "over at
most the most recent 252 bars (one trading year; fewer if the series is
shorter)", i.e. over `bars.drop (bars.length - 252)`. -/
def spec52WeekPricePosition (bars : List Bar) : PricePosition52w :=
  calculate52WeekPricePosition (bars.drop (bars.length - 252))

/-- A bar with a same-day gain (open 1, high 3, low 1, close 2),
timestamped at the epoch (a Thursday). -/
def gainBar : Bar := ⟨0, 1, 3, 1, 2, 0⟩

/-- Thirty consecutive gaining bars. -/
def gainBars30 : List Bar := List.replicate 30 gainBar

/-- A zero-range bar: open, high, low and close all equal 1. -/
def flatBar : Bar := ⟨0, 1, 1, 1, 1, 0⟩

/-- A single bar closing exactly at its own high. -/
def fullHighBar : Bar := ⟨0, 1, 3, 1, 3, 0⟩

/-- A bar whose true range against an identical predecessor is 14
(high 15, low 1, close 1). -/
def atrBar : Bar := ⟨0, 1, 15, 1, 1, 0⟩

/-- Exactly 14 identical wide-range bars: only 13 true-range values
exist for this series. -/
def atrBars14 : List Bar := List.replicate 14 atrBar

/-- An early spike bar: high 100, far above every later bar. -/
def spikeBar : Bar := ⟨0, 10, 100, 10, 10, 0⟩

/-- A bar of the flat trailing window: high 50, low 10, close 50. -/
def windowBar : Bar := ⟨0, 10, 50, 10, 50, 0⟩

/-- A 253-bar series whose most recent close (50) equals the high of the
most recent 252 bars, but not the high (100) of the whole series. -/
def longSeries : List Bar := spikeBar :: List.replicate 252 windowBar

/-- Thirty-one consecutive gaining bars. -/
def gainBars31 : List Bar := List.replicate 31 gainBar

/-- The day-of-week entry produced for `[gainBar]` (one Thursday bar
with a same-day return of 1). -/
def thursdayEntry : DayOfWeekPerformance := ⟨"Thursday", 1, 0, 1⟩

/-! ### Calendar utility lemmas -/

lemma dayOfWeek_lt (d : Nat) : dayOfWeek d < 7 :=
  Nat.mod_lt _ (by norm_num)

lemma dayOfWeek_succ (d : Nat) : dayOfWeek (d + 1) = (dayOfWeek d + 1) % 7 := by
  unfold dayOfWeek
  omega

lemma weekendRun_le_two (d : Nat) : weekendRun d ≤ 2 := by
  unfold weekendRun
  split
  · omega
  · split <;> omega

lemma weekendRun_succ_lt (d : Nat) (h : ¬(dayOfWeek d ≠ 6 ∧ dayOfWeek d ≠ 0)) :
    weekendRun (d + 1) < weekendRun d := by
  have h7 := dayOfWeek_lt d
  have hs := dayOfWeek_succ d
  have hs2 := dayOfWeek_succ (d + 1)
  unfold weekendRun
  split_ifs <;> omega

/-- With enough fuel the collection loop returns exactly `needed` days;
the budget `weekendRun d + 3 * needed` suffices because every three
units of fuel yield at least one business day. -/
lemma collectBusinessDays_length (fuel : Nat) :
    ∀ needed d, weekendRun d + 3 * needed ≤ fuel →
      (collectBusinessDays fuel needed d).length = needed := by
  induction fuel with
  | zero =>
    intro needed d h
    have hz : needed = 0 := by omega
    subst hz
    rfl
  | succ f ih =>
    intro needed d h
    cases needed with
    | zero => rfl
    | succ n =>
      simp only [collectBusinessDays]
      by_cases hw : dayOfWeek d ≠ 6 ∧ dayOfWeek d ≠ 0
      · rw [if_pos hw]
        have hb0 : weekendRun d = 0 := by unfold weekendRun; rw [if_pos hw]
        have hb2 := weekendRun_le_two (d + 1)
        simp only [List.length_cons]
        rw [ih n (d + 1) (by omega)]
      · rw [if_neg hw]
        have hlt := weekendRun_succ_lt d hw
        exact ih (n + 1) (d + 1) (by omega)

/-- Every collected day is a business day (weekday 1–5). -/
lemma collectBusinessDays_weekday (fuel : Nat) :
    ∀ needed d x, x ∈ collectBusinessDays fuel needed d →
      dayOfWeek x ≠ 6 ∧ dayOfWeek x ≠ 0 := by
  induction fuel with
  | zero => intro _ _ x hx; simp [collectBusinessDays] at hx
  | succ f ih =>
    intro needed d x hx
    cases needed with
    | zero => simp [collectBusinessDays] at hx
    | succ n =>
      simp only [collectBusinessDays] at hx
      by_cases hw : dayOfWeek d ≠ 6 ∧ dayOfWeek d ≠ 0
      · rw [if_pos hw] at hx
        rcases List.mem_cons.mp hx with rfl | hx'
        · exact hw
        · exact ih n (d + 1) x hx'
      · rw [if_neg hw] at hx
        exact ih (n + 1) (d + 1) x hx

/-- Every collected day is at or after the starting day. -/
lemma collectBusinessDays_ge (fuel : Nat) :
    ∀ needed d x, x ∈ collectBusinessDays fuel needed d → d ≤ x := by
  induction fuel with
  | zero => intro _ _ x hx; simp [collectBusinessDays] at hx
  | succ f ih =>
    intro needed d x hx
    cases needed with
    | zero => simp [collectBusinessDays] at hx
    | succ n =>
      simp only [collectBusinessDays] at hx
      by_cases hw : dayOfWeek d ≠ 6 ∧ dayOfWeek d ≠ 0
      · rw [if_pos hw] at hx
        rcases List.mem_cons.mp hx with rfl | hx'
        · exact Nat.le_refl x
        · exact Nat.le_of_succ_le (ih n (d + 1) x hx')
      · rw [if_neg hw] at hx
        exact Nat.le_of_succ_le (ih (n + 1) (d + 1) x hx)

/-- The collected days are strictly increasing. -/
lemma collectBusinessDays_pairwise (fuel : Nat) :
    ∀ needed d, (collectBusinessDays fuel needed d).Pairwise (· < ·) := by
  induction fuel with
  | zero => intro _ _; simp [collectBusinessDays]
  | succ f ih =>
    intro needed d
    cases needed with
    | zero => simp [collectBusinessDays]
    | succ n =>
      simp only [collectBusinessDays]
      by_cases hw : dayOfWeek d ≠ 6 ∧ dayOfWeek d ≠ 0
      · rw [if_pos hw]
        exact List.Pairwise.cons
          (fun x hx => Nat.lt_of_succ_le (collectBusinessDays_ge f n (d + 1) x hx))
          (ih n (d + 1))
      · rw [if_neg hw]
        exact ih (n + 1) (d + 1)

/-- C4: for every reference instant (resolved to an exchange-local
calendar day number and hour), `getNextFiveBusinessDays` returns exactly
5 entries, each a Monday–Friday calendar date (weekday 1–5), strictly
increasing, with no two entries equal. -/
theorem nextTradingDays_shape (day hour : Nat) :
    (getNextFiveBusinessDays day hour).length = 5 ∧
    (∀ x ∈ getNextFiveBusinessDays day hour, 1 ≤ dayOfWeek x ∧ dayOfWeek x ≤ 5) ∧
    (getNextFiveBusinessDays day hour).Pairwise (· < ·) ∧
    (getNextFiveBusinessDays day hour).Nodup := by
  have hEq : getNextFiveBusinessDays day hour =
      collectBusinessDays 20 5
        (if (1 ≤ dayOfWeek day ∧ dayOfWeek day ≤ 5 ∧ 16 ≤ hour) ∨
            dayOfWeek day = 6 ∨ dayOfWeek day = 0 then day + 1 else day) := rfl
  rw [hEq]
  generalize (if (1 ≤ dayOfWeek day ∧ dayOfWeek day ≤ 5 ∧ 16 ≤ hour) ∨
      dayOfWeek day = 6 ∨ dayOfWeek day = 0 then day + 1 else day) = s
  refine ⟨?_, ?_, ?_, ?_⟩
  · exact collectBusinessDays_length 20 5 s (by have := weekendRun_le_two s; omega)
  · intro x hx
    have hw := collectBusinessDays_weekday 20 5 s x hx
    have h7 := dayOfWeek_lt x
    omega
  · exact collectBusinessDays_pairwise 20 5 s
  · exact (collectBusinessDays_pairwise 20 5 s).imp Nat.ne_of_lt

/-- C4 witness at a concrete reference instant. -/
theorem nextTradingDays_shape_witness : (getNextFiveBusinessDays 5 16).length = 5 :=
  (nextTradingDays_shape 5 16).1

/-- C5: the 16:00 market-close cutoff is a closed lower bound.  Day 5 is
a Tuesday (1970-01-06): at hour 16 the first forecast day is day 6
(Wednesday); at hour 15 it is day 5 itself.  Day 2 is a Saturday
(1970-01-03): at any hour the first day is day 4 (the following
Monday).  Day 1 is a Friday (1970-01-02): at hour 16 the first day is
also day 4 (Saturday and Sunday both skipped). -/
theorem marketCloseCutoff_boundaries :
    ((getNextFiveBusinessDays 5 16).head? = some 6 ∧ dayOfWeek 5 = 2 ∧ dayOfWeek 6 = 3) ∧
    ((getNextFiveBusinessDays 5 15).head? = some 5) ∧
    ((∀ hour : Nat, (getNextFiveBusinessDays 2 hour).head? = some 4) ∧
      dayOfWeek 2 = 6 ∧ dayOfWeek 4 = 1) ∧
    ((getNextFiveBusinessDays 1 16).head? = some 4 ∧ dayOfWeek 1 = 5) := by
  refine ⟨by decide, by decide, ⟨?_, by decide, by decide⟩, by decide⟩
  intro hour
  have hEq : getNextFiveBusinessDays 2 hour = collectBusinessDays 20 5 3 := by
    show collectBusinessDays 20 5
        (if (1 ≤ dayOfWeek 2 ∧ dayOfWeek 2 ≤ 5 ∧ 16 ≤ hour) ∨
            dayOfWeek 2 = 6 ∨ dayOfWeek 2 = 0 then 2 + 1 else 2) =
      collectBusinessDays 20 5 3
    rw [if_pos (Or.inr (Or.inl (by decide)))]
  rw [hEq]
  decide

/-- C5 witness: the Tuesday-at-close boundary instance. -/
theorem marketCloseCutoff_boundaries_witness :
    (getNextFiveBusinessDays 2 0).head? = some 4 :=
  marketCloseCutoff_boundaries.2.2.1.1 0

/-! ### Statistics engine lemmas -/

/-- C1: `calculateHistoricalStatistics` reports the insufficient-data
error exactly when fewer than 30 bars are supplied, and with at least 30
bars it returns a result (the embedding is total: no sub-computation can
fail once the precondition holds). -/
theorem computeStatistics_threshold (bars : List Bar) :
    (bars.length < 30 →
      calculateHistoricalStatistics bars = .error insufficientHistoryMsg) ∧
    (30 ≤ bars.length → (calculateHistoricalStatistics bars).isOk = true) := by
  unfold calculateHistoricalStatistics
  constructor
  · intro h
    rw [if_pos h]
  · intro h
    rw [if_neg (by omega)]
    rfl

/-- C1 witness: the empty series errors, a 30-bar series succeeds. -/
theorem computeStatistics_threshold_witness :
    calculateHistoricalStatistics [] = .error insufficientHistoryMsg ∧
    (calculateHistoricalStatistics gainBars30).isOk = true :=
  ⟨(computeStatistics_threshold []).1 (by decide),
   (computeStatistics_threshold gainBars30).2 (by simp [gainBars30])⟩

lemma streakLen_eq_takeWhile (dir : Direction) (l : List Bar) :
    streakLen dir l = (l.takeWhile (fun b => barDirection b == dir)).length := by
  induction l with
  | nil => rfl
  | cons b rest ih =>
    rw [streakLen, List.takeWhile_cons]
    by_cases h : barDirection b = dir
    · rw [if_pos h]
      simp [h, ih]
    · rw [if_neg h]
      simp [h]

lemma streakLen_all (dir : Direction) (l : List Bar)
    (hall : ∀ b ∈ l, barDirection b = dir) : streakLen dir l = l.length := by
  induction l with
  | nil => rfl
  | cons b rest ih =>
    rw [streakLen, if_pos (hall b (List.mem_cons_self b rest))]
    rw [ih (fun x hx => hall x (List.mem_cons_of_mem b hx))]
    rfl

lemma getLastD_of_ne_nil {α : Type} (l : List α) (d : α) (h : l ≠ []) :
    l.getLastD d = l.getLast h := by
  rw [List.getLastD_eq_getLast?, List.getLast?_eq_getLast l h]
  rfl

lemma reverse_eq_getLast_cons {α : Type} (l : List α) (h : l ≠ []) :
    l.reverse = l.getLast h :: l.dropLast.reverse := by
  conv_lhs => rw [← List.dropLast_append_getLast h]
  rw [List.reverse_append]
  rfl

lemma getLastD_replicate {α : Type} (n : Nat) (a d : α) :
    (List.replicate n a).getLastD d = if n = 0 then d else a := by
  induction n generalizing d with
  | zero => rfl
  | succ m ih =>
    rw [List.replicate_succ, List.getLastD_cons, ih a]
    cases m <;> simp

/-- C6: the streak direction is the most recent bar's own close-vs-open
sign, `days` counts the consecutive most-recent bars sharing that sign
(the matching prefix of the reversed series), `days ≥ 1`, and a 30-bar
all-gain series yields `{direction := gain, days := 30}`. -/
theorem streak_spec (bars : List Bar) (h : bars ≠ []) :
    (calculateConsecutiveGainLossStreak bars).direction = barDirection (bars.getLast h) ∧
    (calculateConsecutiveGainLossStreak bars).days =
      (bars.reverse.takeWhile
        (fun b => barDirection b == barDirection (bars.getLast h))).length ∧
    1 ≤ (calculateConsecutiveGainLossStreak bars).days ∧
    (bars.length = 30 → (∀ b ∈ bars, b.OpenPrice < b.ClosePrice) →
      calculateConsecutiveGainLossStreak bars = ⟨.gain, 30⟩) := by
  have hd : bars.getLastD default = bars.getLast h := getLastD_of_ne_nil bars default h
  refine ⟨?_, ?_, ?_, ?_⟩
  · show barDirection (bars.getLastD default) = barDirection (bars.getLast h)
    rw [hd]
  · show streakLen (barDirection (bars.getLastD default)) bars.reverse = _
    rw [hd]
    exact streakLen_eq_takeWhile _ _
  · show 1 ≤ streakLen (barDirection (bars.getLastD default)) bars.reverse
    rw [hd, reverse_eq_getLast_cons bars h]
    simp only [streakLen, if_true]
    omega
  · intro h30 hall
    have hdir : ∀ b ∈ bars, barDirection b = .gain := by
      intro b hb
      unfold barDirection
      rw [if_pos (hall b hb)]
    show (⟨barDirection (bars.getLastD default),
        streakLen (barDirection (bars.getLastD default)) bars.reverse⟩ :
        ConsecutiveGainLossStreak) = ⟨.gain, 30⟩
    rw [hd, hdir _ (List.getLast_mem h)]
    rw [streakLen_all .gain bars.reverse
      (fun b hb => hdir b (List.mem_reverse.mp hb))]
    rw [List.length_reverse, h30]

/-- C6 witness: thirty all-gain bars give a 30-day gain streak. -/
theorem streak_spec_witness :
    gainBars30 ≠ [] ∧ calculateConsecutiveGainLossStreak gainBars30 = ⟨.gain, 30⟩ := by
  have hne : gainBars30 ≠ [] := by simp [gainBars30]
  refine ⟨hne, (streak_spec gainBars30 hne).2.2.2 ?_ ?_⟩
  · simp [gainBars30]
  · intro b hb
    rw [List.eq_of_mem_replicate (show b ∈ List.replicate 30 gainBar from hb)]
    decide

lemma getChange_eq (bars : List Bar) (daysAgo : Nat) :
    getChange bars daysAgo =
      if daysAgo < bars.length then
        ((bars.getLastD default).ClosePrice - closeAt bars (bars.length - 1 - daysAgo)) /
          closeAt bars (bars.length - 1 - daysAgo)
      else 0 := rfl

/-- C7: each recent-performance lookback field is
`(lastClose − closeNDaysAgo) / closeNDaysAgo` when a close N days ago
exists, and `0` when the series is too short (graceful degradation, not
a failure). -/
theorem recentPerformance_spec (bars : List Bar) (h : bars ≠ []) :
    (bars.length ≤ 1 → (calculateRecentPerformance bars).change_1d = 0) ∧
    (1 < bars.length → (calculateRecentPerformance bars).change_1d =
      ((bars.getLast h).ClosePrice - closeAt bars (bars.length - 2)) /
        closeAt bars (bars.length - 2)) ∧
    (bars.length ≤ 5 → (calculateRecentPerformance bars).change_5d = 0) ∧
    (5 < bars.length → (calculateRecentPerformance bars).change_5d =
      ((bars.getLast h).ClosePrice - closeAt bars (bars.length - 6)) /
        closeAt bars (bars.length - 6)) ∧
    (bars.length ≤ 30 → (calculateRecentPerformance bars).change_30d = 0) ∧
    (30 < bars.length → (calculateRecentPerformance bars).change_30d =
      ((bars.getLast h).ClosePrice - closeAt bars (bars.length - 31)) /
        closeAt bars (bars.length - 31)) := by
  have hd : bars.getLastD default = bars.getLast h := getLastD_of_ne_nil bars default h
  refine ⟨?_, ?_, ?_, ?_, ?_, ?_⟩
  · intro hl
    show getChange bars 1 = 0
    rw [getChange_eq, if_neg (by omega)]
  · intro hl
    show getChange bars 1 = _
    rw [getChange_eq, if_pos (by omega), hd,
      show bars.length - 1 - 1 = bars.length - 2 by omega]
  · intro hl
    show getChange bars 5 = 0
    rw [getChange_eq, if_neg (by omega)]
  · intro hl
    show getChange bars 5 = _
    rw [getChange_eq, if_pos (by omega), hd,
      show bars.length - 1 - 5 = bars.length - 6 by omega]
  · intro hl
    show getChange bars 30 = 0
    rw [getChange_eq, if_neg (by omega)]
  · intro hl
    show getChange bars 30 = _
    rw [getChange_eq, if_pos (by omega), hd,
      show bars.length - 1 - 30 = bars.length - 31 by omega]

/-- C7 witness: the 30-day field degrades to 0 on a 30-bar series and
follows the close-to-close formula on a 31-bar series. -/
theorem recentPerformance_spec_witness :
    (calculateRecentPerformance gainBars30).change_30d = 0 ∧
    (calculateRecentPerformance gainBars31).change_30d = 0 := by
  have hne : gainBars31 ≠ [] := by simp [gainBars31]
  refine ⟨(recentPerformance_spec gainBars30 (by simp [gainBars30])).2.2.2.2.1
    (by simp [gainBars30]), ?_⟩
  rw [(recentPerformance_spec gainBars31 hne).2.2.2.2.2 (by simp [gainBars31])]
  have hlast : gainBars31.getLast hne = gainBar := by
    rw [← getLastD_of_ne_nil gainBars31 default hne]
    show (List.replicate 31 gainBar).getLastD default = gainBar
    rw [getLastD_replicate]
    norm_num
  have hca : closeAt gainBars31 (gainBars31.length - 31) = 2 := by
    have hl : gainBars31.length = 31 := by simp [gainBars31]
    rw [hl]
    rfl
  rw [hlast, hca]
  norm_num [gainBar]

lemma calc52_cons (b : Bar) (rest : List Bar) :
    calculate52WeekPricePosition (b :: rest) =
      { high := (rest.map Bar.HighPrice).foldl max b.HighPrice
        low := (rest.map Bar.LowPrice).foldl min b.LowPrice
        position :=
          if 0 < (rest.map Bar.HighPrice).foldl max b.HighPrice -
              (rest.map Bar.LowPrice).foldl min b.LowPrice then
            ((rest.getLastD b).ClosePrice -
                (rest.map Bar.LowPrice).foldl min b.LowPrice) /
              ((rest.map Bar.HighPrice).foldl max b.HighPrice -
                (rest.map Bar.LowPrice).foldl min b.LowPrice)
          else 1/2 } := rfl

/-- C8: when the computed high equals the computed low, the position is
the 0.5 convention (the division is guarded by the `high - low > 0`
test). -/
theorem pricePosition_degenerate (b : Bar) (rest : List Bar)
    (h : (calculate52WeekPricePosition (b :: rest)).high =
      (calculate52WeekPricePosition (b :: rest)).low) :
    (calculate52WeekPricePosition (b :: rest)).position = 1/2 := by
  rw [calc52_cons] at h
  rw [calc52_cons]
  simp only at h ⊢
  rw [h, sub_self]
  rw [if_neg (lt_irrefl 0)]

/-- C8 witness: a zero-range single-bar series. -/
theorem pricePosition_degenerate_witness :
    (calculate52WeekPricePosition [flatBar]).high =
      (calculate52WeekPricePosition [flatBar]).low ∧
    (calculate52WeekPricePosition [flatBar]).position = 1/2 :=
  ⟨by decide, pricePosition_degenerate flatBar [] (by decide)⟩

lemma le_foldl_max (l : List ℚ) (x : ℚ) : x ≤ l.foldl max x := by
  induction l generalizing x with
  | nil => exact le_refl x
  | cons c cs ih => exact le_trans (le_max_left x c) (ih (max x c))

lemma mem_le_foldl_max (l : List ℚ) (x : ℚ) : ∀ y ∈ l, y ≤ l.foldl max x := by
  induction l generalizing x with
  | nil => intro y hy; simp at hy
  | cons c cs ih =>
    intro y hy
    rcases List.mem_cons.mp hy with rfl | hy'
    · exact le_trans (le_max_right x y) (le_foldl_max cs (max x y))
    · exact ih (max x c) y hy'

lemma foldl_max_mem (l : List ℚ) (x : ℚ) : l.foldl max x ∈ x :: l := by
  induction l generalizing x with
  | nil => exact List.mem_cons_self _ _
  | cons c cs ih =>
    rw [List.foldl_cons]
    rcases List.mem_cons.mp (ih (max x c)) with heq | hmem
    · rw [heq]
      rcases max_choice x c with hx | hc
      · rw [hx]; exact List.mem_cons_self _ _
      · rw [hc]; exact List.mem_cons_of_mem _ (List.mem_cons_self _ _)
    · exact List.mem_cons_of_mem _ (List.mem_cons_of_mem _ hmem)

lemma foldl_min_le (l : List ℚ) (x : ℚ) : l.foldl min x ≤ x := by
  induction l generalizing x with
  | nil => exact le_refl x
  | cons c cs ih => exact le_trans (ih (min x c)) (min_le_left x c)

lemma foldl_min_le_mem (l : List ℚ) (x : ℚ) : ∀ y ∈ l, l.foldl min x ≤ y := by
  induction l generalizing x with
  | nil => intro y hy; simp at hy
  | cons c cs ih =>
    intro y hy
    rcases List.mem_cons.mp hy with rfl | hy'
    · exact le_trans (foldl_min_le cs (min x y)) (min_le_right x y)
    · exact ih (min x c) y hy'

lemma foldl_min_mem (l : List ℚ) (x : ℚ) : l.foldl min x ∈ x :: l := by
  induction l generalizing x with
  | nil => exact List.mem_cons_self _ _
  | cons c cs ih =>
    rw [List.foldl_cons]
    rcases List.mem_cons.mp (ih (min x c)) with heq | hmem
    · rw [heq]
      rcases min_choice x c with hx | hc
      · rw [hx]; exact List.mem_cons_self _ _
      · rw [hc]; exact List.mem_cons_of_mem _ (List.mem_cons_self _ _)
    · exact List.mem_cons_of_mem _ (List.mem_cons_of_mem _ hmem)

lemma getLastD_cons_mem {α : Type} (b : α) (l : List α) : l.getLastD b ∈ b :: l := by
  induction l generalizing b with
  | nil => exact List.mem_cons_self _ _
  | cons c cs ih =>
    rw [List.getLastD_cons]
    exact List.mem_cons_of_mem _ (ih c)

/-- C10 (implicit): if every bar satisfies `low ≤ close ≤ high`, the
returned position lies in [0, 1] even though the code applies no
clamping. -/
theorem position_in_unit_interval (b : Bar) (rest : List Bar)
    (h : ∀ x ∈ b :: rest, x.LowPrice ≤ x.ClosePrice ∧ x.ClosePrice ≤ x.HighPrice) :
    0 ≤ (calculate52WeekPricePosition (b :: rest)).position ∧
    (calculate52WeekPricePosition (b :: rest)).position ≤ 1 := by
  have hlastMem : rest.getLastD b ∈ b :: rest := getLastD_cons_mem b rest
  obtain ⟨hlc, hch⟩ := h _ hlastMem
  have hLlast : (rest.map Bar.LowPrice).foldl min b.LowPrice ≤
      (rest.getLastD b).LowPrice := by
    rcases List.mem_cons.mp hlastMem with heq | hmem
    · rw [heq]; exact foldl_min_le _ _
    · exact foldl_min_le_mem _ _ _ (List.mem_map_of_mem Bar.LowPrice hmem)
  have hHlast : (rest.getLastD b).HighPrice ≤
      (rest.map Bar.HighPrice).foldl max b.HighPrice := by
    rcases List.mem_cons.mp hlastMem with heq | hmem
    · rw [heq]; exact le_foldl_max _ _
    · exact mem_le_foldl_max _ _ _ (List.mem_map_of_mem Bar.HighPrice hmem)
  have h0 : (rest.map Bar.LowPrice).foldl min b.LowPrice ≤
      (rest.getLastD b).ClosePrice := le_trans hLlast hlc
  have h1 : (rest.getLastD b).ClosePrice ≤
      (rest.map Bar.HighPrice).foldl max b.HighPrice := le_trans hch hHlast
  rw [calc52_cons]
  simp only
  by_cases hp : 0 < (rest.map Bar.HighPrice).foldl max b.HighPrice -
      (rest.map Bar.LowPrice).foldl min b.LowPrice
  · rw [if_pos hp]
    constructor
    · apply div_nonneg <;> linarith
    · rw [div_le_one hp]
      linarith
  · rw [if_neg hp]
    norm_num

/-- C10 witness: a well-formed single-bar series. -/
theorem position_in_unit_interval_witness :
    (∀ x ∈ [gainBar], x.LowPrice ≤ x.ClosePrice ∧ x.ClosePrice ≤ x.HighPrice) ∧
    0 ≤ (calculate52WeekPricePosition [gainBar]).position ∧
    (calculate52WeekPricePosition [gainBar]).position ≤ 1 :=
  ⟨by decide, position_in_unit_interval gainBar [] (by decide)⟩

lemma foldl_max_replicate (n : Nat) (x c : ℚ) :
    (List.replicate n c).foldl max x = if n = 0 then x else max x c := by
  induction n generalizing x with
  | zero => rfl
  | succ m ih =>
    rw [List.replicate_succ, List.foldl_cons, ih (max x c)]
    rcases Nat.eq_zero_or_pos m with rfl | hm
    · simp
    · rw [if_neg (by omega), if_neg (by omega), max_assoc, max_self]

lemma foldl_min_replicate (n : Nat) (x c : ℚ) :
    (List.replicate n c).foldl min x = if n = 0 then x else min x c := by
  induction n generalizing x with
  | zero => rfl
  | succ m ih =>
    rw [List.replicate_succ, List.foldl_cons, ih (min x c)]
    rcases Nat.eq_zero_or_pos m with rfl | hm
    · simp
    · rw [if_neg (by omega), if_neg (by omega), min_assoc, min_self]

/-- C2 (amended): the code computes `high`/`low` over the ENTIRE series
(not a 252-bar window): `high` is the maximum bar high and `low` the
minimum bar low of all bars, both attained; when `low < high` the
position is `(currentClose − low) / (high − low)`, and a series whose
most recent close equals the whole-series high yields position 1. -/
theorem fiftyTwoWeek_whole_series (b : Bar) (rest : List Bar) :
    ((calculate52WeekPricePosition (b :: rest)).high ∈ (b :: rest).map Bar.HighPrice ∧
      ∀ x ∈ b :: rest, x.HighPrice ≤ (calculate52WeekPricePosition (b :: rest)).high) ∧
    ((calculate52WeekPricePosition (b :: rest)).low ∈ (b :: rest).map Bar.LowPrice ∧
      ∀ x ∈ b :: rest, (calculate52WeekPricePosition (b :: rest)).low ≤ x.LowPrice) ∧
    ((calculate52WeekPricePosition (b :: rest)).low <
        (calculate52WeekPricePosition (b :: rest)).high →
      (calculate52WeekPricePosition (b :: rest)).position =
        ((rest.getLastD b).ClosePrice - (calculate52WeekPricePosition (b :: rest)).low) /
          ((calculate52WeekPricePosition (b :: rest)).high -
            (calculate52WeekPricePosition (b :: rest)).low)) ∧
    ((rest.getLastD b).ClosePrice = (calculate52WeekPricePosition (b :: rest)).high →
      (calculate52WeekPricePosition (b :: rest)).low <
        (calculate52WeekPricePosition (b :: rest)).high →
      (calculate52WeekPricePosition (b :: rest)).position = 1) := by
  rw [calc52_cons]
  simp only
  refine ⟨⟨?_, ?_⟩, ⟨?_, ?_⟩, ?_, ?_⟩
  · rw [List.map_cons]
    exact foldl_max_mem _ _
  · intro x hx
    rcases List.mem_cons.mp hx with rfl | hx'
    · exact le_foldl_max _ _
    · exact mem_le_foldl_max _ _ _ (List.mem_map_of_mem Bar.HighPrice hx')
  · rw [List.map_cons]
    exact foldl_min_mem _ _
  · intro x hx
    rcases List.mem_cons.mp hx with rfl | hx'
    · exact foldl_min_le _ _
    · exact foldl_min_le_mem _ _ _ (List.mem_map_of_mem Bar.LowPrice hx')
  · intro hlt
    rw [if_pos (sub_pos.mpr hlt)]
  · intro hce hlt
    rw [if_pos (sub_pos.mpr hlt), hce]
    exact div_self (ne_of_gt (sub_pos.mpr hlt))

/-- C2 (amended) witness: a single bar closing at its own high. -/
theorem fiftyTwoWeek_whole_series_witness :
    ((([] : List Bar).getLastD fullHighBar).ClosePrice =
        (calculate52WeekPricePosition [fullHighBar]).high ∧
      (calculate52WeekPricePosition [fullHighBar]).low <
        (calculate52WeekPricePosition [fullHighBar]).high) ∧
    (calculate52WeekPricePosition [fullHighBar]).position = 1 :=
  ⟨⟨by decide, by decide⟩,
   (fiftyTwoWeek_whole_series fullHighBar []).2.2.2 (by decide) (by decide)⟩

/-- C2 counterexample: a 253-bar series whose last close (50) equals the
high of the most recent 252 bars, yet whose whole-series high is 100:
the spec-modelled 252-bar-window position is 1 while the code computes
4/9, so the code does NOT restrict to a 252-bar window and the claimed
`position = 1.0` scenario fails. -/
theorem fiftyTwoWeek_window_counterexample :
    longSeries.length = 253 ∧
    (longSeries.getLastD default).ClosePrice = (spec52WeekPricePosition longSeries).high ∧
    (spec52WeekPricePosition longSeries).position = 1 ∧
    (calculate52WeekPricePosition longSeries).position = 4/9 ∧
    (calculate52WeekPricePosition longSeries).position ≠
      (spec52WeekPricePosition longSeries).position := by
  have hlen : longSeries.length = 253 := by
    show (spikeBar :: List.replicate 252 windowBar).length = 253
    rw [List.length_cons, List.length_replicate]
  have hrep252 : List.replicate 252 windowBar = windowBar :: List.replicate 251 windowBar := rfl
  have hdrop : longSeries.drop (longSeries.length - 252) = List.replicate 252 windowBar := by
    rw [hlen]
    rfl
  have hlast : longSeries.getLastD default = windowBar := by
    show (spikeBar :: List.replicate 252 windowBar).getLastD default = windowBar
    rw [List.getLastD_cons, getLastD_replicate]
    norm_num
  have hspecFull : spec52WeekPricePosition longSeries = ⟨50, 10, 1⟩ := by
    unfold spec52WeekPricePosition
    rw [hdrop, hrep252, calc52_cons]
    simp only [List.map_replicate]
    rw [foldl_max_replicate, foldl_min_replicate, getLastD_replicate]
    norm_num [windowBar, max_self, min_self]
  have hcodeFull : calculate52WeekPricePosition longSeries = ⟨100, 10, 4/9⟩ := by
    rw [show longSeries = spikeBar :: List.replicate 252 windowBar from rfl, calc52_cons]
    simp only [List.map_replicate]
    rw [foldl_max_replicate, foldl_min_replicate, getLastD_replicate]
    norm_num [spikeBar, windowBar, max_def, min_def]
  refine ⟨hlen, ?_, ?_, ?_, ?_⟩
  · rw [hspecFull, hlast]
    rfl
  · rw [hspecFull]
  · rw [hcodeFull]
  · rw [hspecFull, hcodeFull]
    norm_num

lemma trueRanges_length (bars : List Bar) : (trueRanges bars).length = bars.length - 1 := by
  unfold trueRanges
  rw [List.length_zipWith, List.length_tail]
  omega

lemma sum_drop_eq_sum_reverse_take (l : List ℚ) (k : Nat) :
    (l.drop (l.length - k)).sum = (l.reverse.take k).sum := by
  rw [List.take_reverse, List.sum_reverse]

lemma zipWith_replicate_succ {α β : Type} (f : α → α → β) (n : Nat) (a : α) :
    List.zipWith f (List.replicate (n + 1) a) (List.replicate n a) =
      List.replicate n (f a a) := by
  induction n with
  | zero => rfl
  | succ m ih =>
    show List.zipWith f (a :: List.replicate (m + 1) a) (a :: List.replicate m a) =
      List.replicate (m + 1) (f a a)
    rw [List.zipWith_cons_cons, ih, ← List.replicate_succ]

lemma trueRanges_replicate (n : Nat) (b : Bar) :
    trueRanges (List.replicate (n + 1) b) = List.replicate n (trueRange b b) := by
  unfold trueRanges
  rw [show (List.replicate (n + 1) b).tail = List.replicate n b from rfl]
  exact zipWith_replicate_succ trueRange n b

/-- C3 (amended): the ATR guard is `bars.length < 14` (not "fewer than
14 true-range values"): with fewer than 14 bars the ATR is 0, and with
at least 14 bars it is the sum of the last at-most-14 true ranges
divided by 14 — which is the arithmetic mean of the last 14 true ranges
whenever the series has at least 15 bars (so that 14 true ranges
exist). -/
theorem atr_spec (bars : List Bar) :
    (bars.length < 14 → calculateAverageTrueRange bars 14 = 0) ∧
    (14 ≤ bars.length → calculateAverageTrueRange bars 14 =
      ((trueRanges bars).reverse.take 14).sum / 14) ∧
    (15 ≤ bars.length → ((trueRanges bars).reverse.take 14).length = 14) := by
  refine ⟨?_, ?_, ?_⟩
  · intro h
    unfold calculateAverageTrueRange
    rw [if_pos h]
  · intro h
    unfold calculateAverageTrueRange
    rw [if_neg (by omega)]
    show ((trueRanges bars).drop ((trueRanges bars).length - 14)).sum /
        (((14 : Nat)) : ℚ) = _
    rw [sum_drop_eq_sum_reverse_take]
    norm_cast
  · intro h
    rw [List.length_take, List.length_reverse, trueRanges_length]
    omega

/-- C3 (amended) witness: a 1-bar series gives 0; the 14-bar series
follows the sum-of-last-true-ranges-over-14 formula. -/
theorem atr_spec_witness :
    calculateAverageTrueRange [atrBar] 14 = 0 ∧
    calculateAverageTrueRange atrBars14 14 =
      ((trueRanges atrBars14).reverse.take 14).sum / 14 :=
  ⟨(atr_spec [atrBar]).1 (by norm_num),
   (atr_spec atrBars14).2.1 (by simp [atrBars14])⟩

/-- C3 counterexample: a series of exactly 14 bars has only 13
true-range values (fewer than 14), yet the code returns 13 — the sum of
those 13 true ranges (each 14) divided by 14 — not 0, refuting the
claim that the ATR is 0 whenever fewer than 14 true-range values
exist. -/
theorem atr_off_by_one_counterexample :
    atrBars14.length = 14 ∧
    (trueRanges atrBars14).length = 13 ∧
    calculateAverageTrueRange atrBars14 14 = 13 ∧
    calculateAverageTrueRange atrBars14 14 ≠ 0 := by
  have hlen : atrBars14.length = 14 := by
    show (List.replicate 14 atrBar).length = 14
    rw [List.length_replicate]
  have htr : trueRange atrBar atrBar = 14 := by
    show max (15 - 1) (max |15 - (1:ℚ)| |1 - (1:ℚ)|) = 14
    norm_num
  have htrs : trueRanges atrBars14 = List.replicate 13 (trueRange atrBar atrBar) :=
    trueRanges_replicate 13 atrBar
  have hatr : calculateAverageTrueRange atrBars14 14 = 13 := by
    unfold calculateAverageTrueRange
    rw [if_neg (by rw [hlen]; omega)]
    show ((trueRanges atrBars14).drop ((trueRanges atrBars14).length - 14)).sum /
        (((14 : Nat)) : ℚ) = 13
    rw [htrs, htr, List.length_replicate]
    show ((List.replicate 13 (14:ℚ)).drop 0).sum / (((14 : Nat)) : ℚ) = 13
    rw [List.drop_zero, List.sum_replicate, nsmul_eq_mul]
    norm_num
  refine ⟨hlen, ?_, hatr, ?_⟩
  · rw [htrs, List.length_replicate]
  · rw [hatr]
    norm_num

lemma insertionOrder_mem_aux (bars : List Bar) :
    ∀ (acc : List String) (d : String),
      d ∈ bars.foldl
        (fun acc b => if barDayName b ∈ acc then acc else acc ++ [barDayName b]) acc →
      d ∈ acc ∨ ∃ b ∈ bars, barDayName b = d := by
  induction bars with
  | nil => intro acc d hd; exact Or.inl hd
  | cons b bs ih =>
    intro acc d hd
    rw [List.foldl_cons] at hd
    rcases ih _ d hd with hmem | ⟨b', hb', hb'd⟩
    · by_cases hb : barDayName b ∈ acc
      · rw [if_pos hb] at hmem
        exact Or.inl hmem
      · rw [if_neg hb] at hmem
        rcases List.mem_append.mp hmem with h1 | h2
        · exact Or.inl h1
        · exact Or.inr ⟨b, List.mem_cons_self _ _, (List.mem_singleton.mp h2).symm⟩
    · exact Or.inr ⟨b', List.mem_cons_of_mem _ hb', hb'd⟩

lemma insertionOrder_mem (bars : List Bar) (d : String)
    (hd : d ∈ insertionOrder bars) : ∃ b ∈ bars, barDayName b = d := by
  rcases insertionOrder_mem_aux bars [] d hd with h | h
  · exact absurd h (List.not_mem_nil d)
  · exact h

/-- C9: every emitted day-of-week entry has `0 ≤ winRate ≤ 1`, comes
from a weekday actually observed in the series (unobserved weekdays are
omitted), and its winRate is the count of strictly positive same-day
returns on that weekday divided by the number of bars seen on that
weekday. -/
theorem dayOfWeek_winRate_bounds (bars : List Bar) (e : DayOfWeekPerformance)
    (he : e ∈ calculateDayOfWeekPerformance bars) :
    (0 ≤ e.winRate ∧ e.winRate ≤ 1) ∧
    (∃ b ∈ bars, barDayName b = e.day) ∧
    e.winRate =
      ((bars.filter fun b =>
          decide (0 < dailyChange b) && (barDayName b == e.day)).length : ℚ) /
        ((bars.filter fun b => barDayName b == e.day).length : ℚ) := by
  unfold calculateDayOfWeekPerformance at he
  rcases List.mem_map.mp he with ⟨d, hd, rfl⟩
  have hday : (dayEntry bars d).day = d := rfl
  rw [hday]
  obtain ⟨b0, hb0, hb0d⟩ := insertionOrder_mem bars d hd
  have hb0T : b0 ∈ bars.filter (fun b => barDayName b == d) :=
    List.mem_filter.mpr ⟨hb0, by simp [hb0d]⟩
  have htpos : 0 < (bars.filter (fun b => barDayName b == d)).length :=
    List.length_pos.mpr (List.ne_nil_of_mem hb0T)
  have hwr : (dayEntry bars d).winRate =
      (((bars.filter (fun b => barDayName b == d)).filter
          (fun b => decide (0 < dailyChange b))).length : ℚ) /
        ((bars.filter (fun b => barDayName b == d)).length : ℚ) := by
    show (if 0 < (bars.filter (fun b => barDayName b == d)).length then
        ((((bars.filter (fun b => barDayName b == d)).map dailyChange).filter
            (fun c => decide (0 < c))).length : ℚ) /
          ((bars.filter (fun b => barDayName b == d)).length : ℚ)
      else 0) = _
    rw [if_pos htpos, List.filter_map, List.length_map]
    rfl
  refine ⟨⟨?_, ?_⟩, ⟨b0, hb0, hb0d⟩, ?_⟩
  · rw [hwr]
    exact div_nonneg (Nat.cast_nonneg _) (Nat.cast_nonneg _)
  · rw [hwr]
    rw [div_le_one (by exact_mod_cast htpos)]
    exact_mod_cast List.length_filter_le _ _
  · rw [hwr, List.filter_filter]

/-- C9 witness: the single-Thursday-bar series produces exactly one
entry, with winRate 1. -/
theorem dayOfWeek_winRate_bounds_witness :
    thursdayEntry ∈ calculateDayOfWeekPerformance [gainBar] ∧
    (0 ≤ thursdayEntry.winRate ∧ thursdayEntry.winRate ≤ 1) := by
  have hins : insertionOrder [gainBar] = ["Thursday"] := by
    unfold insertionOrder
    rw [List.foldl_cons, List.foldl_nil, if_neg (List.not_mem_nil _)]
    rfl
  have hentry : dayEntry [gainBar] "Thursday" = thursdayEntry := by
    norm_num [dayEntry, thursdayEntry, dailyChange, gainBar, barDayName, getUTCDay,
      msPerDay, dayNames]
  have hcalc : calculateDayOfWeekPerformance [gainBar] = [thursdayEntry] := by
    unfold calculateDayOfWeekPerformance
    rw [hins, List.map_cons, List.map_nil, hentry]
  have hmem : thursdayEntry ∈ calculateDayOfWeekPerformance [gainBar] := by
    rw [hcalc]
    exact List.mem_singleton.mpr rfl
  exact ⟨hmem, (dayOfWeek_winRate_bounds [gainBar] thursdayEntry hmem).1⟩

end StockSeer
